import Mathlib

/-!
Shallow embedding of `src/alinea/astk/TimeControl.py` (Python 2).

Python values that the module manipulates are modelled by the inductive
type `Py`; Python exceptions other than `StopIteration` are modelled by
`PyErr` together with `Except`; `StopIteration` (normal end of a
sequence) is modelled by `Option`/explicit `stop` results, never as an
error.  Machine-level concerns (floats) are modelled with `ℚ`: all the
arithmetic the module performs on timestamps and durations is exact on
the inputs the claims quantify over.
-/

/-- A Python value, as far as TimeControl.py inspects values: the
singletons `None`, `True`, `False`, integers, strings (used as
attribute names and opaque payloads).  Equality of `Py` values models
Python identity (`is`) on these immutable singletons/literals. -/
inductive Py where
  | none : Py
  | bool : Bool → Py
  | int  : Int → Py
  | str  : String → Py
deriving DecidableEq, Repr

instance : Inhabited Py := ⟨Py.none⟩

/-- A Python exception kind raised (and possibly caught) inside the
module.  `StopIteration` is *not* here: end-of-sequence is a normal
outcome, modelled by `Option.none` / a `stop` constructor. -/
inductive PyErr where
  | typeError : PyErr
  | zeroDivisionError : PyErr
  | indexError : PyErr
  | valueError : PyErr
deriving DecidableEq, Repr

/-- `class TimeControlSet`: "a simple class container for named object".
`__init__(self, **kwd): self.__dict__.update(kwd)` — an attribute
dictionary, modelled as an association list from attribute name to
value. -/
structure TimeControlSet where
  attrs : List (String × Py)
deriving DecidableEq, Repr

instance : Inhabited TimeControlSet := ⟨⟨[]⟩⟩

/-- `TimeControlSet.check(self, attname, defaultvalue)`:
`if not hasattr(self, attname): setattr(self, attname, defaultvalue)`. -/
def TimeControlSet.check (s : TimeControlSet) (attname : String)
    (defaultvalue : Py) : TimeControlSet :=
  if (s.attrs.lookup attname).isSome then s
  else ⟨s.attrs ++ [(attname, defaultvalue)]⟩

/-- The bundle `TimeControlSet(dt=d)` produced by `simple_delay_timing`. -/
def dtSet (d : Int) : TimeControlSet := ⟨[(("dt"), Py.int d)]⟩

/-!
`simple_delay_timing(delay=1, steps=1)` returns the generator
expression
  `(TimeControlSet(dt=delay) if not i % delay else TimeControlSet(dt=0)
    for i in range(steps))`.
Python evaluates `range(steps)` eagerly when the generator is created
(so `steps=None` raises `TypeError` at the call), while `i % delay` is
evaluated lazily at each pull (so `delay=None` / `delay=0` raise only
when the generator is advanced).  Arguments are modelled as
`Option Int` (`Option.none` = Python `None`).
-/

/-- The state of a live `simple_delay_timing` generator: the captured
`delay` argument plus the indices of `range(steps)` not yet consumed. -/
structure SDTGen where
  delay : Option Int
  todo  : List Nat
deriving DecidableEq, Repr

/-- Creating the generator: evaluates `range(steps)` (raising
`TypeError` for `steps=None`, and giving the empty range for a
negative `steps`); the body is suspended. -/
def simple_delay_timing (delay steps : Option Int) : Except PyErr SDTGen :=
  match steps with
  | Option.none => Except.error PyErr.typeError
  | Option.some s => Except.ok ⟨delay, List.range s.toNat⟩

/-- Result of advancing a generator one step: a yielded value and the
rest of the generator, normal exhaustion, or a raised exception. -/
inductive GenStep (σ : Type) where
  | yield : TimeControlSet → σ → GenStep σ
  | stop : GenStep σ
  | err : PyErr → GenStep σ
deriving DecidableEq, Repr

/-- One pull on a `simple_delay_timing` generator: evaluate
`TimeControlSet(dt=delay) if not i % delay else TimeControlSet(dt=0)`
at the next index `i`.  `i % None` raises `TypeError`; `i % 0` raises
`ZeroDivisionError`; otherwise `not i % delay` is true exactly when
`i % delay == 0` (for a negative `delay` Python's modulo differs in
sign from Lean's `Int.emod`, but they agree on being zero). -/
def SDTGen.advance : SDTGen → GenStep SDTGen
  | ⟨_, []⟩ => GenStep.stop
  | ⟨Option.none, _ :: _⟩ => GenStep.err PyErr.typeError
  | ⟨Option.some d, i :: rest⟩ =>
    if d = 0 then GenStep.err PyErr.zeroDivisionError
    else if (i : Int) % d = 0 then GenStep.yield (dtSet d) ⟨Option.some d, rest⟩
    else GenStep.yield (dtSet 0) ⟨Option.some d, rest⟩

/-- Exhaustively pulling on the generator (recursion on the remaining
indices): `Option.some` of the list of all yielded bundles if the
iteration terminates normally, `Option.none` if some pull raises. -/
def sdtRunAux (delay : Option Int) : List Nat → Option (List TimeControlSet)
  | [] => Option.some []
  | i :: rest =>
    match delay with
    | Option.none => Option.none
    | Option.some d =>
      if d = 0 then Option.none
      else (sdtRunAux delay rest).map
        (fun l => (if (i : Int) % d = 0 then dtSet d else dtSet 0) :: l)

def SDTGen.run (g : SDTGen) : Option (List TimeControlSet) :=
  sdtRunAux g.delay g.todo

/-- `run` agrees with repeatedly calling `advance`. -/
theorem SDTGen.run_advance (g : SDTGen) :
    g.run = match g.advance with
      | GenStep.stop => Option.some []
      | GenStep.err _ => Option.none
      | GenStep.yield t g' => (SDTGen.run g').map (fun l => t :: l) := by
  obtain ⟨d, todo⟩ := g
  cases todo with
  | nil => simp [SDTGen.run, sdtRunAux, SDTGen.advance]
  | cons i rest =>
    cases d with
    | none => simp [SDTGen.run, sdtRunAux, SDTGen.advance]
    | some d =>
      by_cases h0 : d = 0
      · simp [SDTGen.run, sdtRunAux, SDTGen.advance, h0]
      · by_cases hm : (i : Int) % d = 0 <;>
          simp [SDTGen.run, sdtRunAux, SDTGen.advance, h0, hm]

/-!
`class TimeControl` — "a generator-like timecontrol object".  Its
`__init__` tries `model.timing(...)`, catching any exception (for
`model=None` the attribute access itself raises `AttributeError`); on
failure it tries `simple_delay_timing(delay=delay, steps=steps)`, and
if creating *that* generator raises it falls back to
`simple_delay_timing()` (i.e. `delay=1, steps=1`).  `weather` and
`start_date` are opaque pass-through values the module never inspects;
they are omitted from the embedding.
-/

/-- The `model` argument of `TimeControl`: Python `None` (attribute
access raises), an object whose `timing` capability raises, or an
object whose `timing` returns a working iterator of bundles. -/
inductive Model where
  | pyNone : Model
  | raising : Model
  | withTiming : List TimeControlSet → Model
deriving DecidableEq, Repr

/-- Evaluating `model.timing(delay=..., steps=..., weather=...,
start_date=...)`: an exception (of any kind — the caller catches with a
bare `except:`) for `None` or a raising capability, otherwise the
model's own iterator of step bundles. -/
def Model.timing : Model → Except Unit (List TimeControlSet)
  | Model.pyNone => Except.error ()
  | Model.raising => Except.error ()
  | Model.withTiming bs => Except.ok bs

/-- The `self._timing` generator held by a `TimeControl`: either the
model's own iterator or a `simple_delay_timing` fallback generator. -/
inductive TimingGen where
  | fromModel : List TimeControlSet → TimingGen
  | fallback : SDTGen → TimingGen
deriving DecidableEq, Repr

/-- The default generator `simple_delay_timing()` =
`simple_delay_timing(delay=1, steps=1)`. -/
def defaultSDT : SDTGen := ⟨Option.some 1, List.range (Int.toNat 1)⟩

theorem defaultSDT_eq :
    simple_delay_timing (Option.some 1) (Option.some 1) =
      Except.ok defaultSDT := rfl

/-- `TimeControl.__init__`: the value of `self._timing` after the
nested `try`/`except` blocks (every exception path is caught, so the
result is total). -/
def TimeControl.init (delay steps : Option Int) (model : Model) : TimingGen :=
  match Model.timing model with
  | Except.ok bs => TimingGen.fromModel bs
  | Except.error _ =>
    match simple_delay_timing delay steps with
    | Except.ok g => TimingGen.fallback g
    | Except.error _ => TimingGen.fallback defaultSDT

/-- `TimeControl.next`: one pull on `self._timing` (for a model-provided
iterator: yield its next bundle or stop; for the fallback:
`SDTGen.advance`). -/
def TimingGen.advance : TimingGen → GenStep TimingGen
  | TimingGen.fromModel [] => GenStep.stop
  | TimingGen.fromModel (b :: bs) => GenStep.yield b (TimingGen.fromModel bs)
  | TimingGen.fallback g =>
    match g.advance with
    | GenStep.stop => GenStep.stop
    | GenStep.err e => GenStep.err e
    | GenStep.yield t g' => GenStep.yield t (TimingGen.fallback g')

/-- The full sequence of step bundles a `TimeControl` produces
(`Option.none` if some pull raises). -/
def TimingGen.run : TimingGen → Option (List TimeControlSet)
  | TimingGen.fromModel bs => Option.some bs
  | TimingGen.fallback g => g.run

/-!
`class TimeControler` — "a controler for parallel run of time controls".
Its `_timedict` maps stream names to iterables; `__iter__` rewraps every
value in a fresh iterator and resets `numiter`; `next` builds
`d = dict((k, v.next()) for k, v in self._timedict.iteritems())`, raises
`StopIteration` if `d` comes out empty, and otherwise increments
`numiter` and returns `d`.  Under Python 2 (pre-PEP-479) semantics a
`StopIteration` raised by `v.next()` *inside* the generator expression
silently terminates the generator expression itself, so `dict()`
returns the PARTIAL dict built from the streams iterated before the
exhausted one — each of those streams already advanced by one item,
the exhausted stream and all later ones untouched.  `next` therefore
raises `StopIteration` only when that partial dict is empty, i.e. when
there are no streams or the first stream in iteration order is
exhausted.  Streams are modelled as lists of their remaining items (an
arbitrary item type `α`); Python's arbitrary-but-fixed dict iteration
order is the association-list order.
-/

structure TimeControler (α : Type) where
  timedict : List (String × List α)
  numiter : Nat
deriving DecidableEq, Repr

/-- The dict construction `dict((k, v.next()) for k, v in ...)` under
pre-PEP-479 semantics: pull one item from each stream in order until a
stream is exhausted; that stream's `StopIteration` ends the generator
expression silently.  Result: the (possibly partial) name-to-item
mapping from the maximal leading run of non-empty streams, together
with the whole stream list in its new state (that leading run advanced
by one item, the remainder untouched). -/
def popAll {α : Type} :
    List (String × List α) → List (String × α) × List (String × List α)
  | [] => ([], [])
  | (k, []) :: rest => ([], (k, []) :: rest)
  | (k, x :: xs) :: rest =>
    ((k, x) :: (popAll rest).1, (k, xs) :: (popAll rest).2)

/-- `TimeControler.next`: build `d` as above, then
`if len(d) == 0: raise StopIteration`, then `numiter += 1; return d`. -/
def TimeControler.next {α : Type} (tc : TimeControler α) :
    Option (List (String × α) × TimeControler α) :=
  if (popAll tc.timedict).1.isEmpty then Option.none
  else Option.some ((popAll tc.timedict).1,
    ⟨(popAll tc.timedict).2, tc.numiter + 1⟩)

/-- `k` successive successful advances: the resulting controller, or
`Option.none` if some advance in between signalled end-of-sequence. -/
def TimeControler.advanceK {α : Type} :
    TimeControler α → Nat → Option (TimeControler α)
  | tc, 0 => Option.some tc
  | tc, k + 1 =>
    match tc.next with
    | Option.none => Option.none
    | Option.some (_, tc') => tc'.advanceK k

/-- `popAll` in closed form: the mapping pairs each stream of the
maximal all-non-empty prefix with its head; those streams lose their
head, the rest (starting with the first exhausted stream) are
untouched. -/
theorem popAll_eq {α : Type} [Inhabited α] (l : List (String × List α)) :
    popAll l =
      ((l.takeWhile (fun p => !p.2.isEmpty)).map
          (fun p => (p.1, p.2.headI)),
       (l.takeWhile (fun p => !p.2.isEmpty)).map
          (fun p => (p.1, p.2.tail)) ++
         l.dropWhile (fun p => !p.2.isEmpty)) := by
  induction l with
  | nil => rfl
  | cons hd tl ih =>
    obtain ⟨k, xs⟩ := hd
    cases xs with
    | nil =>
      simp [popAll, List.takeWhile_cons, List.dropWhile_cons]
    | cons x xs =>
      simp [popAll, List.takeWhile_cons, List.dropWhile_cons, ih,
        List.headI]

/-!
"New approach": `TimingElement`, `delay_to_timing`, `Timing`.
Durations are Python floats produced by `time_split` (total seconds
divided by 3600); they are modelled exactly as rationals, with
Python's `int()` truncation toward zero.
-/

/-- `class TimingElement`: wraps one payload value. -/
structure TimingElement where
  data : Py
deriving DecidableEq, Repr

/-- `TimingElement.__nonzero__`:
`if self.data is not False: return True else: return False`. -/
def TimingElement.nonzero (e : TimingElement) : Bool :=
  if e.data ≠ Py.bool false then true else false

/-- Python `int()` on a (rational-valued) number: truncation toward
zero. -/
def pytrunc (q : ℚ) : Int := if q < 0 then ⌈q⌉ else ⌊q⌋

/-- One block of `delay_to_timing`:
`[dat if i == 0 else False for i in range(int(d))]`. -/
def pyblock (d : ℚ) (dat : Py) : List Py :=
  (List.range (pytrunc d).toNat).map
    (fun i => if i = 0 then dat else Py.bool false)

/-- The local list `timing` built by `delay_to_timing`: one block per
`zip`-ped pair when `datas` is given, else one block per delay with
payload `True`. -/
def blocksOf (delays : List ℚ) (datas : Option (List Py)) : List (List Py) :=
  match datas with
  | Option.some ds => (delays.zip ds).map (fun p => pyblock p.1 p.2)
  | Option.none => delays.map (fun d => pyblock d (Py.bool true))

/-- `delay_to_timing(delays, datas=None)`: build the blocks, then
`reduce(lambda x, y: x + y, timing)` — which raises `TypeError` when
`timing` is empty (no initial value) and otherwise concatenates the
blocks left to right starting from the first block. -/
def delay_to_timing (delays : List ℚ) (datas : Option (List Py)) :
    Except PyErr (List Py) :=
  match blocksOf delays datas with
  | [] => Except.error PyErr.typeError
  | b :: bs => Except.ok (bs.foldl (fun x y => x ++ y) b)

/-- `class Timing`: stores `delays` and `datas` and holds
`self._timing = iter(map(TimingElement, delay_to_timing(delays, datas)))`
(here: the not-yet-consumed part of that list).  Construction
propagates the exception `delay_to_timing` may raise. -/
structure TimingState where
  delays : List ℚ
  datas : Option (List Py)
  timing : List TimingElement
deriving DecidableEq, Repr

def Timing.mk (delays : List ℚ) (datas : Option (List Py)) :
    Except PyErr TimingState :=
  (delay_to_timing delays datas).map
    (fun l => ⟨delays, datas, l.map (fun p => ⟨p⟩)⟩)

/-- `Timing.__iter__`: `return Timing(self.delays, self.datas)` — a
fresh object rebuilt from the stored configuration. -/
def TimingState.iter (t : TimingState) : Except PyErr TimingState :=
  Timing.mk t.delays t.datas

/-- `Timing.next`: one pull on `self._timing` (`Option.none` =
`StopIteration`). -/
def TimingState.next : TimingState → Option (TimingElement × TimingState)
  | ⟨_, _, []⟩ => Option.none
  | ⟨ds, da, x :: xs⟩ => Option.some (x, ⟨ds, da, xs⟩)

/-- Consuming up to `k` elements from a live `Timing` (staying put once
exhausted). -/
def TimingState.consume : TimingState → Nat → TimingState
  | t, 0 => t
  | t, k + 1 =>
    match t.next with
    | Option.none => t
    | Option.some (_, t') => t'.consume k

/-- The sequence of `EventMarker` truth values of the remaining
elements. -/
def TimingState.truthTrace (t : TimingState) : List Bool :=
  t.timing.map TimingElement.nonzero

/-!
`time_split(time_sequence, weather_data=None, delay=1)`.  Timestamps
are modelled as rationals measured in hours (so `(t - t0)
.total_seconds() / 3600` is `t - t0`, and the expression
`time_sequence[-1] + 1` adds one hour — the unit the spec assigns to
it).  The weather table is an opaque external collaborator; the
embedding covers the `weather_data=None` path, on which every block's
payload is Python `None`.  Python's `%` on numbers is floor-based:
`a % b == a - b * floor(a / b)`.
-/

/-- Python's `a % b` for numbers (`b ≠ 0`), the floor-remainder. -/
def pymod (a b : ℚ) : ℚ := a - b * ⌊a / b⌋

/-- The `starts` of `time_split`: `time_sequence[filter]` where
`filter = [t % delay == 0 for t in time]` and `time` lists the offsets
in hours from the first timestamp. -/
def tsStarts (ts : List ℚ) (t0 delay : ℚ) : List ℚ :=
  ts.filter (fun t => pymod (t - t0) delay = 0)

/-- The matching `ends`: `starts[1:].tolist() + [time_sequence[-1] + 1]`. -/
def tsEnds (ts : List ℚ) (t0 delay : ℚ) (last : ℚ) : List ℚ :=
  (tsStarts ts t0 delay).drop 1 ++ [last + 1]

/-- `time_split` on the `weather_data=None` path: raises `IndexError`
on an empty sequence (`time_sequence[-1]`), `ZeroDivisionError` when
`delay == 0` is used in `%` (the offset list is then non-empty), and
`ValueError` if the final unpacking `delays, data = zip(*events)` sees
no events; otherwise returns the parallel `(delays, datas)` lists. -/
def time_split (ts : List ℚ) (delay : ℚ) : Except PyErr (List ℚ × List Py) :=
  match ts with
  | [] => Except.error PyErr.indexError
  | t0 :: rest =>
    if delay = 0 then Except.error PyErr.zeroDivisionError
    else
      let starts := tsStarts (t0 :: rest) t0 delay
      let ends := tsEnds (t0 :: rest) t0 delay
        ((t0 :: rest).getLast (List.cons_ne_nil t0 rest))
      let events := (starts.zip ends).map (fun p => (p.2 - p.1, Py.none))
      if events.isEmpty then Except.error PyErr.valueError
      else Except.ok (events.map Prod.fst, events.map Prod.snd)

/-! ### Claim theorems -/

theorem lookup_append_self (l : List (String × Py)) (name : String) (v : Py)
    (h : l.lookup name = Option.none) :
    (l ++ [(name, v)]).lookup name = Option.some v := by
  induction l with
  | nil => simp [List.lookup]
  | cons hd tl ih =>
    obtain ⟨k, w⟩ := hd
    by_cases hk : name = k
    · subst hk; simp [List.lookup] at h
    · have hbeq : (name == k) = false := beq_eq_false_iff_ne.mpr hk
      simp only [List.cons_append, List.lookup, hbeq] at h ⊢
      exact ih h

/-- C8: `TimeControlSet.check` sets an absent attribute to the default,
leaves any present value (of whatever kind) unchanged, and calling it a
second time — even with a different default — leaves the value set by
the first call. -/
theorem timeControlSet_check_spec (s : TimeControlSet) (name : String)
    (v w : Py) :
    (s.attrs.lookup name = Option.none →
      (s.check name v).attrs = s.attrs ++ [(name, v)]) ∧
    (∀ u, s.attrs.lookup name = Option.some u → s.check name v = s) ∧
    (s.check name v).check name w = s.check name v := by
  refine ⟨?_, ?_, ?_⟩
  · intro h
    simp [TimeControlSet.check, h]
  · intro u h
    simp [TimeControlSet.check, h]
  · cases h : s.attrs.lookup name with
    | none =>
      have h1 : s.check name v = ⟨s.attrs ++ [(name, v)]⟩ := by
        simp [TimeControlSet.check, h]
      rw [h1]
      simp [TimeControlSet.check, lookup_append_self s.attrs name v h]
    | some u =>
      have h1 : s.check name v = s := by simp [TimeControlSet.check, h]
      have h2 : s.check name w = s := by simp [TimeControlSet.check, h]
      rw [h1, h2]

/-- Witness for C8, at the empty bundle with `dt` defaults 0 then 5. -/
theorem timeControlSet_check_spec_witness :
    ((⟨[]⟩ : TimeControlSet).check ("dt") (Py.int 0)).attrs
        = [(("dt"), Py.int 0)] ∧
    (((⟨[]⟩ : TimeControlSet).check ("dt") (Py.int 0)).check ("dt") (Py.int 5))
        = (⟨[]⟩ : TimeControlSet).check ("dt") (Py.int 0) := by
  obtain ⟨h1, _, h3⟩ :=
    timeControlSet_check_spec ⟨[]⟩ ("dt") (Py.int 0) (Py.int 5)
  exact ⟨by rw [h1 rfl]; rfl, h3⟩

/-- C9: the truth test of a `TimingElement` is `false` iff the wrapped
payload is the value `False`; every other payload (including `True`,
`None`, and arbitrary event data) tests `true`. -/
theorem timingElement_nonzero_iff (d : Py) :
    TimingElement.nonzero ⟨d⟩ = false ↔ d = Py.bool false := by
  by_cases h : d = Py.bool false <;> simp [TimingElement.nonzero, h]

/-- Witness for C9 at the payloads `False`, `True` and an event-data
string. -/
theorem timingElement_nonzero_iff_witness :
    TimingElement.nonzero ⟨Py.bool false⟩ = false ∧
    TimingElement.nonzero ⟨Py.bool true⟩ = true ∧
    TimingElement.nonzero ⟨Py.str ("rain")⟩ = true := by
  refine ⟨(timingElement_nonzero_iff (Py.bool false)).mpr rfl, ?_, ?_⟩
  · by_contra h
    have hb : TimingElement.nonzero ⟨Py.bool true⟩ = false := by
      revert h; cases TimingElement.nonzero ⟨Py.bool true⟩ <;> simp
    have := (timingElement_nonzero_iff (Py.bool true)).mp hb
    simp at this
  · by_contra h
    have hb : TimingElement.nonzero ⟨Py.str ("rain")⟩ = false := by
      revert h; cases TimingElement.nonzero ⟨Py.str ("rain")⟩ <;> simp
    have := (timingElement_nonzero_iff (Py.str ("rain"))).mp hb
    simp at this

/-- C10: `delay_to_timing` on an empty `delays` list raises (the
`reduce` has no initial value and no items), for either form of
`datas`; it does not return an empty sequence. -/
theorem delay_to_timing_empty (datas : Option (List Py)) :
    delay_to_timing [] datas = Except.error PyErr.typeError := by
  cases datas <;> rfl

theorem sdtRun_of_ne_zero (d : Int) (hd : d ≠ 0) (todo : List Nat) :
    SDTGen.run ⟨Option.some d, todo⟩ =
      Option.some (todo.map
        (fun (i : Nat) => if (i : Int) % d = 0 then dtSet d else dtSet 0)) := by
  show sdtRunAux (Option.some d) todo = _
  induction todo with
  | nil => simp [sdtRunAux]
  | cons i rest ih => simp [sdtRunAux, hd, ih]

/-- C5: for a positive integer `delay` and non-negative integer
`steps`, `simple_delay_timing` yields exactly `steps` bundles, bundle
`i` carrying `dt = delay` when `delay` divides `i` and `dt = 0`
otherwise. -/
theorem simple_delay_timing_spec (d s : Int) (hd : 0 < d) (hs : 0 ≤ s) :
    ∃ g, simple_delay_timing (Option.some d) (Option.some s) = Except.ok g ∧
      g.run = Option.some ((List.range s.toNat).map
        (fun (i : Nat) => if (i : Int) % d = 0 then dtSet d else dtSet 0)) ∧
      g.run.map List.length = Option.some s.toNat := by
  refine ⟨⟨Option.some d, List.range s.toNat⟩, rfl, ?_, ?_⟩
  · exact sdtRun_of_ne_zero d (by omega) _
  · rw [sdtRun_of_ne_zero d (by omega)]
    simp only [Option.map_some', List.length_map, List.length_range]

/-- Witness for C5 at `delay=3, steps=9`: the dt values come out in the
order `[3,0,0,3,0,0,3,0,0]`. -/
theorem simple_delay_timing_spec_witness :
    (0 : Int) < 3 ∧ (0 : Int) ≤ 9 ∧
    ∃ g, simple_delay_timing (Option.some 3) (Option.some 9) = Except.ok g ∧
      g.run = Option.some [dtSet 3, dtSet 0, dtSet 0, dtSet 3, dtSet 0,
        dtSet 0, dtSet 3, dtSet 0, dtSet 0] := by
  refine ⟨by norm_num, by norm_num, ?_⟩
  obtain ⟨g, h1, h2, _⟩ :=
    simple_delay_timing_spec 3 9 (by norm_num) (by norm_num)
  exact ⟨g, h1, by rw [h2]; decide⟩

/-- C2 counterexample: with `delay=0`, `steps=2` and no model, the
fallback generator is *created* successfully (so the degenerate
default `simple_delay_timing(1, 1)` is not substituted), and the very
first advance of the constructed scheduler raises `ZeroDivisionError`
— the scheduler cannot be advanced. -/
theorem timeControl_init_counterexample :
    TimeControl.init (Option.some 0) (Option.some 2) Model.pyNone =
      TimingGen.fallback ⟨Option.some 0, [0, 1]⟩ ∧
    SDTGen.advance ⟨Option.some 0, [0, 1]⟩ =
      GenStep.err PyErr.zeroDivisionError ∧
    TimeControl.init (Option.some 0) (Option.some 2) Model.pyNone ≠
      TimingGen.fallback defaultSDT := by
  refine ⟨by decide, by decide, by decide⟩

/-- C2 amended: `TimeControl` construction is total (the embedding of
`__init__` returns for every argument combination); when the model's
timing fails *and creating* the fallback generator raises (invalid
`steps`), the degenerate default `simple_delay_timing(delay=1,
steps=1)` is substituted, and that default advances without error,
yielding the single bundle `dt=1`.  (A constructed scheduler need not
be advanceable: an invalid `delay` with valid `steps` passes
construction and raises on the first advance.) -/
theorem timeControl_init_amended (delay steps : Option Int) (model : Model)
    (hm : Model.timing model = Except.error ())
    (hf : ∃ e, simple_delay_timing delay steps = Except.error e) :
    TimeControl.init delay steps model = TimingGen.fallback defaultSDT ∧
    defaultSDT.run = Option.some [dtSet 1] := by
  obtain ⟨e, he⟩ := hf
  constructor
  · simp [TimeControl.init, hm, he]
  · decide

/-- Witness for the amended C2 at `delay=None, steps=None, model=None`. -/
theorem timeControl_init_amended_witness :
    Model.timing Model.pyNone = Except.error () ∧
    (∃ e, simple_delay_timing Option.none Option.none = Except.error e) ∧
    TimeControl.init Option.none Option.none Model.pyNone =
      TimingGen.fallback defaultSDT ∧
    defaultSDT.run = Option.some [dtSet 1] := by
  exact ⟨rfl, ⟨PyErr.typeError, rfl⟩,
    timeControl_init_amended Option.none Option.none Model.pyNone rfl
      ⟨PyErr.typeError, rfl⟩⟩

/-- C7: a `TimeControl` built with a model whose timing capability
raises holds exactly the same generator — hence produces exactly the
same sequence of step bundles — as one built with `model=None` and the
same `delay`/`steps`; both reduce to the uniform fallback, and the
model's failure is not propagated (construction returns normally). -/
theorem timeControl_raising_eq_none (delay steps : Option Int) :
    TimeControl.init delay steps Model.raising =
      TimeControl.init delay steps Model.pyNone ∧
    (TimeControl.init delay steps Model.raising).run =
      (TimeControl.init delay steps Model.pyNone).run ∧
    ∃ g, TimeControl.init delay steps Model.raising = TimingGen.fallback g ∧
      TimeControl.init delay steps Model.pyNone = TimingGen.fallback g := by
  refine ⟨rfl, rfl, ?_⟩
  cases steps with
  | none => exact ⟨defaultSDT, rfl, rfl⟩
  | some s => exact ⟨⟨delay, List.range s.toNat⟩, rfl, rfl⟩

theorem foldl_append_eq_join (bs : List (List Py)) (b : List Py) :
    bs.foldl (fun x y => x ++ y) b = b ++ bs.join := by
  induction bs generalizing b with
  | nil => simp
  | cons c cs ih => simp [List.foldl, ih, List.append_assoc]

/-- C3 counterexample: on the empty list of (vacuously all-positive)
durations, `delay_to_timing` does not return the concatenation of zero
blocks (the empty sequence) — it raises. -/
theorem delay_to_timing_empty_counterexample :
    delay_to_timing [] Option.none ≠
      Except.ok ((blocksOf [] Option.none).join) ∧
    delay_to_timing [] Option.none = Except.error PyErr.typeError := by
  refine ⟨fun h => ?_, rfl⟩
  rw [show delay_to_timing [] Option.none = Except.error PyErr.typeError
    from rfl] at h
  exact Except.noConfusion h

theorem pyblock_length (d : ℚ) (p : Py) :
    (pyblock d p).length = (pytrunc d).toNat := by
  simp [pyblock]

theorem blocksOf_length (delays : List ℚ) (datas : Option (List Py))
    (hlen : ∀ ds, datas = Option.some ds → ds.length = delays.length) :
    (blocksOf delays datas).length = delays.length := by
  cases datas with
  | none => simp [blocksOf]
  | some ds => simp [blocksOf, hlen ds rfl]

/-- C3 amended: for every *non-empty* list of positive durations (with
optional parallel `datas` of the same length), `delay_to_timing`
returns the in-order concatenation of one block per index, where block
`i` has exactly `truncate(delays[i])` entries, entry 0 of the block is
`datas[i]` (`True` when `datas` is omitted) and the other entries are
`False`; the total length is the sum of the truncated durations, and a
duration truncating to 0 contributes an empty block.  (On the empty
list the function instead raises — see the counterexample.) -/
theorem delay_to_timing_spec (delays : List ℚ) (datas : Option (List Py))
    (hne : delays ≠ [])
    (hpos : ∀ d ∈ delays, 0 < d)
    (hlen : ∀ ds, datas = Option.some ds → ds.length = delays.length) :
    delay_to_timing delays datas = Except.ok ((blocksOf delays datas).join) ∧
    (blocksOf delays datas).length = delays.length ∧
    (∀ (i : Nat) (hi : i < delays.length)
        (hi2 : i < (blocksOf delays datas).length),
      (blocksOf delays datas).get ⟨i, hi2⟩ =
        pyblock (delays.get ⟨i, hi⟩)
          (match datas with
           | Option.some ds => ds.getD i Py.none
           | Option.none => Py.bool true)) ∧
    (∀ (d : ℚ) (p : Py),
      (pyblock d p).length = (pytrunc d).toNat ∧
      (pytrunc d = 0 → pyblock d p = []) ∧
      ∀ (j : Nat) (hj : j < (pyblock d p).length),
        (pyblock d p).get ⟨j, hj⟩ = if j = 0 then p else Py.bool false) ∧
    ((blocksOf delays datas).join).length =
      (delays.map (fun d => (pytrunc d).toNat)).sum := by
  refine ⟨?_, blocksOf_length delays datas hlen, ?_, ?_, ?_⟩
  · have hbne : blocksOf delays datas ≠ [] := by
      intro h
      have := blocksOf_length delays datas hlen
      rw [h] at this
      exact hne (List.length_eq_zero.mp this.symm)
    cases hb : blocksOf delays datas with
    | nil => exact absurd hb hbne
    | cons b bs =>
      simp [delay_to_timing, hb, foldl_append_eq_join]
  · intro i hi hi2
    cases datas with
    | none => simp [blocksOf]
    | some ds =>
      have hds := hlen ds rfl
      have hzip : i < (delays.zip ds).length := by
        simp [List.length_zip, hds, hi]
      simp only [blocksOf, List.get_map]
      have h1 : (delays.zip ds).get ⟨i, hzip⟩ =
          (delays.get ⟨i, hi⟩, ds.get ⟨i, by omega⟩) := by
        simp [List.get_zip]
      simp [h1, List.getD,
        List.getElem?_eq_getElem (show i < ds.length by omega)]
  · intro d p
    refine ⟨pyblock_length d p, ?_, ?_⟩
    · intro h0; simp [pyblock, h0]
    · intro j hj
      simp [pyblock]
  · rw [List.length_join]
    cases datas with
    | none =>
      simp only [blocksOf, List.map_map]
      congr 1
      apply List.map_congr_left
      intro d _
      simp [Function.comp, pyblock_length]
    | some ds =>
      have hds := hlen ds rfl
      simp only [blocksOf, List.map_map]
      have : ((delays.zip ds).map
          (Function.comp List.length (fun pr => pyblock pr.1 pr.2))) =
          (delays.zip ds).map (fun pr => (pytrunc pr.1).toNat) := by
        apply List.map_congr_left
        intro pr _
        simp [Function.comp, pyblock_length]
      rw [this]
      have hfst : (delays.zip ds).map (fun pr => (pytrunc pr.1).toNat) =
          ((delays.zip ds).map Prod.fst).map (fun d => (pytrunc d).toNat) := by
        simp [List.map_map, Function.comp]
      rw [hfst, List.map_fst_zip delays ds (by omega)]

/-- Witness for the amended C3 at `delays = [2, 1/2]`, no `datas`:
the first duration contributes the block `[True, False]`, the second
truncates to 0 and contributes the empty block, so the flattened
result is `[True, False]`. -/
theorem delay_to_timing_spec_witness :
    (([2, 1/2] : List ℚ) ≠ []) ∧
    (∀ d ∈ ([2, 1/2] : List ℚ), 0 < d) ∧
    delay_to_timing [2, 1/2] Option.none =
      Except.ok ((blocksOf [2, 1/2] Option.none).join) ∧
    delay_to_timing [2, 1/2] Option.none =
      Except.ok [Py.bool true, Py.bool false] := by
  have hpos : ∀ d ∈ ([2, 1/2] : List ℚ), 0 < d := by
    intro d hd
    simp only [List.mem_cons, List.not_mem_nil, or_false] at hd
    rcases hd with rfl | rfl <;> norm_num
  have h := delay_to_timing_spec [2, 1/2] Option.none (by simp) hpos
    (fun ds h => Option.noConfusion h)
  have htr2 : pytrunc 2 = 2 := by norm_num [pytrunc]
  have htrh : pytrunc (1/2 : ℚ) = 0 := by norm_num [pytrunc]
  have hblocks : blocksOf ([2, 1/2] : List ℚ) Option.none =
      [[Py.bool true, Py.bool false], []] := by
    simp only [blocksOf, List.map_cons, List.map_nil, pyblock, htr2, htrh]
    decide
  refine ⟨by simp, hpos, h.1, ?_⟩
  rw [h.1, hblocks]
  rfl

theorem consume_preserves (k : Nat) (t : TimingState) :
    (t.consume k).delays = t.delays ∧ (t.consume k).datas = t.datas := by
  induction k generalizing t with
  | zero => exact ⟨rfl, rfl⟩
  | succ k ih =>
    obtain ⟨ds, da, timing⟩ := t
    cases timing with
    | nil => simp [TimingState.consume, TimingState.next]
    | cons x xs =>
      simpa [TimingState.consume, TimingState.next] using ih ⟨ds, da, xs⟩

/-- C6: a `Timing` rebuilt (restarted) from its stored
`(delays, datas)` — from any point of consumption — is the original,
fully-populated object again, so any two restarts produce identical
sequences of `EventMarker` truth values. -/
theorem timing_restart_spec (delays : List ℚ) (datas : Option (List Py))
    (hlen : ∀ ds, datas = Option.some ds → ds.length = delays.length)
    (t : TimingState) (h : Timing.mk delays datas = Except.ok t)
    (j k : Nat) :
    ((t.consume j).iter = Except.ok t ∧ (t.consume k).iter = Except.ok t) ∧
    ((t.consume j).iter).map TimingState.truthTrace =
      ((t.consume k).iter).map TimingState.truthTrace := by
  have hfields : t.delays = delays ∧ t.datas = datas := by
    unfold Timing.mk at h
    cases hdt : delay_to_timing delays datas with
    | error e => rw [hdt] at h; exact Except.noConfusion h
    | ok l =>
      rw [hdt] at h
      have h2 : (Except.ok ⟨delays, datas, l.map (fun p => ⟨p⟩)⟩ :
          Except PyErr TimingState) = Except.ok t := h
      cases h2
      exact ⟨rfl, rfl⟩
  have hiter : ∀ m : Nat, (t.consume m).iter = Except.ok t := by
    intro m
    have hp := consume_preserves m t
    unfold TimingState.iter
    rw [hp.1, hp.2, hfields.1, hfields.2]
    exact h
  exact ⟨⟨hiter j, hiter k⟩, by rw [hiter j, hiter k]⟩

/-- Witness for C6 at `delays = [2, 1]`, `datas = [7, False]`,
restarting after consuming 1 element versus after consuming 3. -/
theorem timing_restart_spec_witness :
    (∀ ds, (Option.some [Py.int 7, Py.bool false] : Option (List Py)) =
        Option.some ds → ds.length = ([2, 1] : List ℚ).length) ∧
    ∃ t, Timing.mk [2, 1] (Option.some [Py.int 7, Py.bool false]) =
        Except.ok t ∧
      (t.consume 1).iter = Except.ok t ∧ (t.consume 3).iter = Except.ok t ∧
      t.truthTrace = [true, false, false] := by
  have htr2 : pytrunc 2 = 2 := by norm_num [pytrunc]
  have htr1 : pytrunc 1 = 1 := by norm_num [pytrunc]
  have hdt : delay_to_timing [2, 1]
      (Option.some [Py.int 7, Py.bool false]) =
      Except.ok [Py.int 7, Py.bool false, Py.bool false] := by
    have hblocks : blocksOf ([2, 1] : List ℚ)
        (Option.some [Py.int 7, Py.bool false]) =
        [[Py.int 7, Py.bool false], [Py.bool false]] := by
      simp only [blocksOf, List.zip_cons_cons, List.zip_nil_right,
        List.map_cons, List.map_nil, pyblock, htr2, htr1]
      decide
    rw [delay_to_timing, hblocks]
    rfl
  have hmk : Timing.mk [2, 1] (Option.some [Py.int 7, Py.bool false]) =
      Except.ok ⟨[2, 1], Option.some [Py.int 7, Py.bool false],
        [⟨Py.int 7⟩, ⟨Py.bool false⟩, ⟨Py.bool false⟩]⟩ := by
    rw [Timing.mk, hdt]
    rfl
  have hlen : ∀ ds, (Option.some [Py.int 7, Py.bool false] :
      Option (List Py)) = Option.some ds →
      ds.length = ([2, 1] : List ℚ).length := by
    intro ds hds
    cases hds
    rfl
  refine ⟨hlen, ⟨[2, 1], Option.some [Py.int 7, Py.bool false],
    [⟨Py.int 7⟩, ⟨Py.bool false⟩, ⟨Py.bool false⟩]⟩, hmk, ?_, ?_, rfl⟩
  · exact ((timing_restart_spec [2, 1]
      (Option.some [Py.int 7, Py.bool false]) hlen _ hmk 1 3).1).1
  · exact ((timing_restart_spec [2, 1]
      (Option.some [Py.int 7, Py.bool false]) hlen _ hmk 1 3).1).2

/-- The shape of every successful advance: the returned mapping is
non-empty and pairs each stream of the maximal all-non-empty leading
run with its head; when *all* streams are non-empty that is one item
per stream. -/
theorem next_some_shape {α : Type} [Inhabited α] (u : TimeControler α)
    (d : List (String × α)) (u' : TimeControler α)
    (h : u.next = Option.some (d, u')) :
    d ≠ [] ∧
    d = (u.timedict.takeWhile (fun p => !p.2.isEmpty)).map
      (fun p => (p.1, p.2.headI)) ∧
    ((∀ p ∈ u.timedict, p.2 ≠ []) → d.length = u.timedict.length) := by
  by_cases he : (popAll u.timedict).1.isEmpty = true
  · rw [TimeControler.next, if_pos he] at h
    exact Option.noConfusion h
  · rw [TimeControler.next, if_neg he] at h
    have h2 := Option.some.inj h
    have hd : d = (popAll u.timedict).1 := (congrArg Prod.fst h2).symm
    have hdform : d = (u.timedict.takeWhile
        (fun p => !p.2.isEmpty)).map (fun p => (p.1, p.2.headI)) := by
      rw [hd, popAll_eq]
    refine ⟨?_, hdform, ?_⟩
    · intro hnil
      rw [hd] at hnil
      rw [hnil] at he
      exact he rfl
    · intro hall
      have hself : u.timedict.takeWhile (fun p => !p.2.isEmpty) =
          u.timedict := by
        rw [List.takeWhile_eq_self_iff]
        intro p hp
        simpa [List.isEmpty_iff] using hall p hp
      rw [hdform, hself, List.length_map]

/-- The number of successful joint advances equals the length of the
FIRST stream in iteration order: every successful advance consumes its
head, and end-of-sequence fires exactly when it is exhausted. -/
theorem advanceK_first_stream {α : Type} [Inhabited α] :
    ∀ (s : List α) (tc : TimeControler α) (k : String)
      (rest : List (String × List α)),
      tc.timedict = (k, s) :: rest →
      (tc.advanceK s.length).isSome = true ∧
      tc.advanceK (s.length + 1) = Option.none := by
  intro s
  induction s with
  | nil =>
    intro tc k rest htd
    have hd0 : (popAll tc.timedict).1 = [] := by rw [htd]; rfl
    have hnext : tc.next = Option.none := by
      rw [TimeControler.next, hd0]
      rfl
    exact ⟨rfl, by rw [TimeControler.advanceK, hnext]⟩
  | cons x xs ih =>
    intro tc k rest htd
    have hpop : popAll tc.timedict =
        ((k, x) :: (popAll rest).1, (k, xs) :: (popAll rest).2) := by
      rw [htd]; rfl
    have hnext : tc.next = Option.some ((k, x) :: (popAll rest).1,
        ⟨(k, xs) :: (popAll rest).2, tc.numiter + 1⟩) := by
      rw [TimeControler.next, hpop]
      rfl
    have hk := ih ⟨(k, xs) :: (popAll rest).2, tc.numiter + 1⟩ k
      (popAll rest).2 rfl
    constructor
    · show (tc.advanceK (xs.length + 1)).isSome = true
      rw [TimeControler.advanceK, hnext]
      exact hk.1
    · show tc.advanceK (xs.length + 1 + 1) = Option.none
      rw [TimeControler.advanceK, hnext]
      exact hk.2

/-- Two named streams of lengths 5 and 3 for C1. -/
def tcPair : TimeControler Py :=
  ⟨[(("a"), [Py.int 1, Py.int 2, Py.int 3, Py.int 4, Py.int 5]),
    (("b"), [Py.int 10, Py.int 20, Py.int 30])], 0⟩

/-- C1 counterexample: with streams `a` (5 items) then `b` (3 items),
the shortest stream holds 3 items, yet the 4th advance does not signal
end-of-sequence: Python 2's `dict()` swallows the mid-comprehension
`StopIteration` of the exhausted stream `b` and the advance returns
the partial one-entry mapping `[("a", 4th item)]` — not one item per
stream — and the joint iteration runs 5 steps, ending only when the
first stream `a` is exhausted. -/
theorem timeControler_lockstep_counterexample :
    tcPair.timedict.map (fun p => p.2.length) = [5, 3] ∧
    tcPair.advanceK 3 =
      Option.some ⟨[(("a"), [Py.int 4, Py.int 5]), (("b"), [])], 3⟩ ∧
    TimeControler.next ⟨[(("a"), [Py.int 4, Py.int 5]), (("b"), [])], 3⟩ =
      Option.some ([(("a"), Py.int 4)],
        ⟨[(("a"), [Py.int 5]), (("b"), [])], 4⟩) ∧
    ([(("a"), Py.int 4)] : List (String × Py)).length ≠
      ([(("a"), [Py.int 4, Py.int 5]), (("b"), [])] :
        List (String × List Py)).length ∧
    (tcPair.advanceK 5).isSome = true ∧
    tcPair.advanceK 6 = Option.none := by
  decide

/-- C1 amended: each successful advance of a `TimeControler` returns
the non-empty mapping pairing each stream of the maximal leading run
of non-empty streams with its head — one item per stream only while
every stream is non-empty — and the joint iteration ends exactly when
the FIRST stream in iteration order is exhausted: with first stream of
length `m`, exactly `m` joint advances succeed and the `m+1`-st
signals end-of-sequence.  (A later stream exhausting mid-step is
swallowed by the dict construction and yields a partial mapping
instead of ending the iteration.) -/
theorem timeControler_first_stream_spec {α : Type} [Inhabited α]
    (tc : TimeControler α) (k : String) (s : List α)
    (rest : List (String × List α))
    (htd : tc.timedict = (k, s) :: rest) :
    (∀ (u : TimeControler α) (d : List (String × α))
        (u' : TimeControler α), u.next = Option.some (d, u') →
      d ≠ [] ∧
      d = (u.timedict.takeWhile (fun p => !p.2.isEmpty)).map
        (fun p => (p.1, p.2.headI)) ∧
      ((∀ p ∈ u.timedict, p.2 ≠ []) → d.length = u.timedict.length)) ∧
    (tc.advanceK s.length).isSome = true ∧
    tc.advanceK (s.length + 1) = Option.none := by
  refine ⟨next_some_shape, ?_, ?_⟩
  · exact (advanceK_first_stream s tc k rest htd).1
  · exact (advanceK_first_stream s tc k rest htd).2

/-- Witness for the amended C1: streams of lengths 5 and 3 in order
`[a, b]` give exactly 5 joint steps (the first stream's length) before
end-of-sequence, the first advance pairing every stream with its
head. -/
theorem timeControler_first_stream_spec_witness :
    tcPair.timedict = (("a"), [Py.int 1, Py.int 2, Py.int 3, Py.int 4,
      Py.int 5]) :: [(("b"), [Py.int 10, Py.int 20, Py.int 30])] ∧
    (tcPair.advanceK 5).isSome = true ∧
    tcPair.advanceK 6 = Option.none ∧
    (∀ d tc', tcPair.next = Option.some (d, tc') → d.length = 2) := by
  have h := timeControler_first_stream_spec tcPair ("a")
    [Py.int 1, Py.int 2, Py.int 3, Py.int 4, Py.int 5]
    [(("b"), [Py.int 10, Py.int 20, Py.int 30])] rfl
  refine ⟨rfl, h.2.1, h.2.2, ?_⟩
  intro d tc' hn
  have := (h.1 tcPair d tc' hn).2.2 (by decide)
  rw [this]
  rfl

theorem pymod_eq_zero_iff (a b : ℚ) (hb : b ≠ 0) :
    pymod a b = 0 ↔ ∃ k : ℤ, a = k * b := by
  unfold pymod
  constructor
  · intro h
    rw [sub_eq_zero] at h
    exact ⟨⌊a / b⌋, h.trans (mul_comm b _)⟩
  · rintro ⟨k, rfl⟩
    have hq : ((k : ℚ) * b) / b = (k : ℚ) := by field_simp
    rw [hq, Int.floor_intCast]
    ring

theorem map_sub_zip (l1 l2 : List ℚ) :
    (l1.zip l2).map (fun p => p.2 - p.1) =
      List.zipWith (fun s e => e - s) l1 l2 := by
  induction l1 generalizing l2 with
  | nil => simp
  | cons a l ih =>
    cases l2 with
    | nil => simp
    | cons b l2 => simp [ih]

/-- C4: on a non-empty strictly increasing timestamp sequence with a
non-zero `delay`, `time_split` selects as block-starts exactly the
timestamps whose offset in hours from the first timestamp is an exact
(integer) multiple of `delay`; the returned durations pair each
selected start with the next selected start — the last with one hour
past the final timestamp — and the data column is all `None` on the
no-weather path. -/
theorem time_split_spec (t0 : ℚ) (rest : List ℚ) (delay : ℚ)
    (hinc : List.Chain' (fun a b => a < b) (t0 :: rest)) (hd : delay ≠ 0) :
    ∃ ds das,
      time_split (t0 :: rest) delay = Except.ok (ds, das) ∧
      (∀ t, t ∈ tsStarts (t0 :: rest) t0 delay ↔
        t ∈ t0 :: rest ∧ ∃ k : ℤ, t - t0 = k * delay) ∧
      ds = List.zipWith (fun s e => e - s) (tsStarts (t0 :: rest) t0 delay)
        (tsEnds (t0 :: rest) t0 delay
          ((t0 :: rest).getLast (List.cons_ne_nil t0 rest))) ∧
      das = List.replicate (tsStarts (t0 :: rest) t0 delay).length
        Py.none := by
  have hmod0 : pymod 0 delay = 0 := by
    unfold pymod
    rw [zero_div, Int.floor_zero]
    simp
  have hstart : t0 ∈ tsStarts (t0 :: rest) t0 delay := by
    rw [tsStarts, List.mem_filter]
    exact ⟨List.mem_cons_self t0 rest, by simp [hmod0]⟩
  have hsne : tsStarts (t0 :: rest) t0 delay ≠ [] :=
    List.ne_nil_of_mem hstart
  have hspos : 0 < (tsStarts (t0 :: rest) t0 delay).length :=
    List.length_pos.mpr hsne
  have hendslen : (tsEnds (t0 :: rest) t0 delay
      ((t0 :: rest).getLast (List.cons_ne_nil t0 rest))).length =
      (tsStarts (t0 :: rest) t0 delay).length := by
    rw [tsEnds, List.length_append, List.length_drop]
    simp only [List.length_singleton]
    omega
  have hziplen : ((tsStarts (t0 :: rest) t0 delay).zip
      (tsEnds (t0 :: rest) t0 delay
        ((t0 :: rest).getLast (List.cons_ne_nil t0 rest)))).length =
      (tsStarts (t0 :: rest) t0 delay).length := by
    rw [List.length_zip, hendslen, min_self]
  have hevne : (((tsStarts (t0 :: rest) t0 delay).zip
      (tsEnds (t0 :: rest) t0 delay
        ((t0 :: rest).getLast (List.cons_ne_nil t0 rest)))).map
      (fun p => (p.2 - p.1, Py.none))).isEmpty = false := by
    rw [List.isEmpty_eq_false_iff_exists_mem]
    have : 0 < ((tsStarts (t0 :: rest) t0 delay).zip
        (tsEnds (t0 :: rest) t0 delay
          ((t0 :: rest).getLast (List.cons_ne_nil t0 rest)))).length := by
      omega
    obtain ⟨p, hp⟩ := List.exists_mem_of_length_pos this
    exact ⟨(p.2 - p.1, Py.none), List.mem_map_of_mem _ hp⟩
  have heq : time_split (t0 :: rest) delay = Except.ok
      ((((tsStarts (t0 :: rest) t0 delay).zip
          (tsEnds (t0 :: rest) t0 delay
            ((t0 :: rest).getLast (List.cons_ne_nil t0 rest)))).map
        (fun p => (p.2 - p.1, Py.none))).map Prod.fst,
       (((tsStarts (t0 :: rest) t0 delay).zip
          (tsEnds (t0 :: rest) t0 delay
            ((t0 :: rest).getLast (List.cons_ne_nil t0 rest)))).map
        (fun p => (p.2 - p.1, Py.none))).map Prod.snd) := by
    simp only [time_split, if_neg hd, hevne, Bool.false_eq_true, if_false]
  refine ⟨_, _, heq, ?_, ?_, ?_⟩
  · intro t
    rw [tsStarts, List.mem_filter]
    constructor
    · rintro ⟨hmem, hpred⟩
      exact ⟨hmem, (pymod_eq_zero_iff (t - t0) delay hd).mp
        (by simpa using hpred)⟩
    · rintro ⟨hmem, hk⟩
      exact ⟨hmem, by
        simp only [decide_eq_true_eq]
        exact (pymod_eq_zero_iff (t - t0) delay hd).mpr hk⟩
  · rw [List.map_map]
    rw [show Prod.fst ∘ (fun p : ℚ × ℚ => (p.2 - p.1, Py.none)) =
        (fun p : ℚ × ℚ => p.2 - p.1) from rfl]
    exact map_sub_zip _ _
  · rw [List.map_map]
    rw [show Prod.snd ∘ (fun p : ℚ × ℚ => (p.2 - p.1, Py.none)) =
        (fun _ : ℚ × ℚ => Py.none) from rfl]
    rw [List.map_const', hziplen]

/-- A uniformly-spaced hourly sequence of 24 timestamps (hours). -/
def hourly24 : List ℚ :=
  [0, 1, 2, 3, 4, 5, 6, 7, 8, 9, 10, 11, 12,
   13, 14, 15, 16, 17, 18, 19, 20, 21, 22, 23]

/-- Witness for C4: over `hourly24` with `delay=6`, `time_split` yields
4 blocks each of duration 6 hours. -/
theorem time_split_spec_witness :
    List.Chain' (fun a b => a < b) hourly24 ∧ (6 : ℚ) ≠ 0 ∧
    ∃ ds das, time_split hourly24 6 = Except.ok (ds, das) ∧
      ds = [6, 6, 6, 6] ∧ das = [Py.none, Py.none, Py.none, Py.none] := by
  have hchain : List.Chain' (fun a b : ℚ => a < b) hourly24 := by
    norm_num [hourly24, List.chain'_cons]
  have h := time_split_spec 0
    [1, 2, 3, 4, 5, 6, 7, 8, 9, 10, 11, 12,
     13, 14, 15, 16, 17, 18, 19, 20, 21, 22, 23] 6 hchain (by norm_num)
  obtain ⟨ds, das, heq, _, hds, hdas⟩ := h
  have hstarts : tsStarts ((0 : ℚ) :: [1, 2, 3, 4, 5, 6, 7, 8, 9, 10, 11,
      12, 13, 14, 15, 16, 17, 18, 19, 20, 21, 22, 23]) 0 6 =
      [0, 6, 12, 18] := by
    norm_num [tsStarts, pymod, List.filter]
  have hlast : ((0 : ℚ) :: [1, 2, 3, 4, 5, 6, 7, 8, 9, 10, 11, 12, 13, 14,
      15, 16, 17, 18, 19, 20, 21, 22, 23]).getLast
      (List.cons_ne_nil _ _) = 23 := by
    simp [List.getLast]
  have hends : tsEnds ((0 : ℚ) :: [1, 2, 3, 4, 5, 6, 7, 8, 9, 10, 11, 12,
      13, 14, 15, 16, 17, 18, 19, 20, 21, 22, 23]) 0 6
      (((0 : ℚ) :: [1, 2, 3, 4, 5, 6, 7, 8, 9, 10, 11, 12, 13, 14, 15, 16,
        17, 18, 19, 20, 21, 22, 23]).getLast (List.cons_ne_nil _ _)) =
      [6, 12, 18, 24] := by
    rw [tsEnds, hstarts, hlast]
    norm_num
  refine ⟨hchain, by norm_num, ds, das, heq, ?_, ?_⟩
  · rw [hds, hstarts, hends]
    norm_num
  · rw [hdas, hstarts]
    rfl
